import Mathlib

/-!
Shallow embedding of the pool-backed memory allocator in
src/memory_manager.c.

The allocator keeps a side table of up to MAX_SEGMENTS block descriptors
(a static array threaded into a metadata free list) and a singly linked
ledger of segments, each holding an offset into the pool, a size in
bytes, and a free flag.  The embedding models the ledger as a
List Segment in list order, the remaining metadata descriptors as a
Nat counter (freeNodes), and pointers as byte offsets from the pool
base.  The pthread mutex serialises every public call, so each public
operation is modelled as a pure state transformer.
-/

namespace MemMgr

/-- One block descriptor: `segment_t` from memory_manager.c
(offset from the pool base, size in bytes, free flag). -/
structure Segment where
  offset : Nat
  size : Nat
  free : Bool
deriving DecidableEq

/-- The allocator state while a pool is live: pool capacity
(`pool_size`), the ledger in list order (`segment_head` chain),
and the number of metadata descriptors left on `segment_free_list`. -/
structure Pool where
  capacity : Nat
  segs : List Segment
  freeNodes : Nat
deriving DecidableEq

/-- Constant `MAX_SEGMENTS` from memory_manager.c. -/
def MAX_SEGMENTS : Nat := 65536

/-- Embedding of `mem_init`: a zero size returns at once without touching the state;
otherwise the old pool (if any) is discarded and a single free segment
covering the whole pool is created, consuming one of the MAX_SEGMENTS
descriptors. -/
def mem_init (size : Nat) (st : Option Pool) : Option Pool :=
  if size = 0 then st
  else
    some { capacity := size
           segs := [{ offset := 0, size := size, free := true }]
           freeNodes := MAX_SEGMENTS - 1 }

/-- The size adjustment at the top of `mem_alloc`: a zero request is
treated as a one-byte allocation. -/
def adjSize (size : Nat) : Nat := if size = 0 then 1 else size

/-- The scan loop of `mem_alloc`: walk the ledger, take the first free
segment large enough; an exact fit flips the free flag in place, a
larger fit splits off the remainder as a new free segment (failing if
the metadata free list is empty).  Returns the offset handed out, the
updated ledger and the updated descriptor count, or none on failure. -/
def allocScan : List Segment → Nat → Nat → Option (Nat × List Segment × Nat)
  | [], _, _ => none
  | cur :: rest, freeNodes, size =>
    if cur.free = true ∧ size ≤ cur.size then
      if cur.size = size then
        some (cur.offset, { cur with free := false } :: rest, freeNodes)
      else if freeNodes = 0 then
        none
      else
        some (cur.offset,
          { offset := cur.offset, size := size, free := false } ::
            { offset := cur.offset + size, size := cur.size - size, free := true } :: rest,
          freeNodes - 1)
    else
      match allocScan rest freeNodes size with
      | none => none
      | some (off, rest2, fn) => some (off, cur :: rest2, fn)

/-- Embedding of `mem_alloc` on a live pool: adjust a zero size to one byte, then
run the first-fit scan; on failure the state is untouched. -/
def mem_alloc (p : Pool) (size : Nat) : Option Nat × Pool :=
  match allocScan p.segs p.freeNodes (adjSize size) with
  | none => (none, p)
  | some (off, segs2, fn) => (some off, { p with segs := segs2, freeNodes := fn })

/-- Embedding of `mem_alloc` including the `memory_pool == NULL` guard: with no live
pool every allocation fails. -/
def memAllocTop (st : Option Pool) (size : Nat) : Option Nat × Option Pool :=
  match st with
  | none => (none, none)
  | some p => ((mem_alloc p size).1, some (mem_alloc p size).2)

/-- The loop of `coalesce_free_segments` with the cursor segment held
explicitly: while the cursor and the following segment are both free and
contiguous, merge them and stay on the merged cursor (as the C loop
does); otherwise emit the cursor and advance.  Each released descriptor
goes back to the metadata free list, so the counter grows by one per
merge. -/
def coalesceAux : Segment → List Segment → Nat → List Segment × Nat
  | cur, [], fn => ([cur], fn)
  | cur, next :: rest, fn =>
    if cur.free = true ∧ next.free = true ∧ cur.offset + cur.size = next.offset then
      coalesceAux { cur with size := cur.size + next.size } rest (fn + 1)
    else
      let r := coalesceAux next rest fn
      (cur :: r.1, r.2)

/-- Embedding of `coalesce_free_segments`: one pass over the ledger merging every
adjacent pair of free segments whose ranges are contiguous. -/
def coalesce : List Segment → Nat → List Segment × Nat
  | [], fn => ([], fn)
  | cur :: rest, fn => coalesceAux cur rest fn

/-- Embedding of `find_segment_by_offset`: the first segment whose offset matches. -/
def findSeg : List Segment → Nat → Option Segment
  | [], _ => none
  | cur :: rest, offset =>
    if cur.offset = offset then some cur else findSeg rest offset

/-- The mutation done by `mem_free` once the segment is found: set the
free flag of the first segment at the given offset. -/
def markFree : List Segment → Nat → List Segment
  | [], _ => []
  | cur :: rest, offset =>
    if cur.offset = offset then { cur with free := true } :: rest
    else cur :: markFree rest offset

/-- Embedding of `mem_free` on a live pool: an offset outside the pool or not the
start of any segment is ignored; otherwise the segment is marked free
and the whole ledger is coalesced. -/
def mem_free (p : Pool) (offset : Nat) : Pool :=
  if p.capacity ≤ offset then p
  else
    match findSeg p.segs offset with
    | none => p
    | some _ =>
      let r := coalesce (markFree p.segs offset) p.freeNodes
      { p with segs := r.1, freeNodes := r.2 }

/-- Intermediate outcome of the in-place part of `mem_resize`:
the target offset was not found; or the call finishes in place with a
returned offset, a new ledger, a new descriptor count and a flag saying
whether `coalesce_free_segments` still has to run; or the
allocate-copy-free fallback is taken. -/
inductive RMid where
  | notFound : RMid
  | done : Nat → List Segment → Nat → Bool → RMid
  | fallback : RMid
deriving DecidableEq

/-- The in-place part of `mem_resize` (paths 1 and 2 in
memory_manager.c): find the segment at the offset; shrink-or-equal
keeps the block in place, splitting off any tail as a new free segment
when a descriptor is available; grow absorbs the immediately following
free contiguous segment when it is large enough, else falls back. -/
def resizeScan : List Segment → Nat → Nat → Nat → RMid
  | [], _, _, _ => RMid.notFound
  | seg :: rest, fn, offset, size =>
    if seg.offset = offset then
      if size ≤ seg.size then
        if seg.size - size = 0 then
          RMid.done offset (seg :: rest) fn false
        else if fn = 0 then
          RMid.done offset (seg :: rest) fn false
        else
          RMid.done offset
            ({ seg with size := size } ::
              { offset := seg.offset + size, size := seg.size - size, free := true } :: rest)
            (fn - 1) true
      else
        match rest with
        | next :: rest2 =>
          if next.free = true ∧ seg.offset + seg.size = next.offset ∧
              size ≤ seg.size + next.size then
            if seg.size + next.size = size then
              RMid.done offset ({ seg with size := size } :: rest2) (fn + 1) false
            else
              RMid.done offset
                ({ seg with size := size } ::
                  { offset := seg.offset + size, size := seg.size + next.size - size,
                    free := next.free } :: rest2)
                fn false
          else RMid.fallback
        | [] => RMid.fallback
    else
      match resizeScan rest fn offset size with
      | RMid.notFound => RMid.notFound
      | RMid.done r segs2 fn2 c => RMid.done r (seg :: segs2) fn2 c
      | RMid.fallback => RMid.fallback

/-- Embedding of `mem_resize` on a live pool with a non-null pointer, as an offset.
A zero new size performs `mem_alloc 1` and, only on success, frees the
old offset.  An offset outside the pool or not the start of any segment
fails with no state change.  Otherwise the in-place paths run and, when
flagged, the ledger is coalesced; the fallback path performs
`mem_alloc size` (the byte copy is not modelled) and, on success, frees
the old offset. -/
def mem_resize (p : Pool) (offset size : Nat) : Option Nat × Pool :=
  if size = 0 then
    match mem_alloc p 1 with
    | (none, p2) => (none, p2)
    | (some noff, p2) => (some noff, mem_free p2 offset)
  else if p.capacity ≤ offset then (none, p)
  else
    match resizeScan p.segs p.freeNodes offset size with
    | RMid.notFound => (none, p)
    | RMid.done r segs2 fn c =>
      if c then
        let cr := coalesce segs2 fn
        (some r, { p with segs := cr.1, freeNodes := cr.2 })
      else
        (some r, { p with segs := segs2, freeNodes := fn })
    | RMid.fallback =>
      match mem_alloc p size with
      | (none, p2) => (none, p2)
      | (some noff, p2) => (some noff, mem_free p2 offset)

/-- The ledger partitions the byte range from start to stop: each
segment begins exactly where the previous one ends and the last ends at
stop. -/
def covers : List Segment → Nat → Nat → Bool
  | [], start, stop => start == stop
  | s :: rest, start, stop => (s.offset == start) && covers rest (start + s.size) stop

/-- Every segment in the ledger has a positive size. -/
def posSizes (segs : List Segment) : Bool :=
  segs.all (fun s => s.size != 0)

/-- Well-formedness of a live pool: the ledger partitions
the range from 0 to capacity and all segments are non-empty. -/
def wf (p : Pool) : Bool :=
  covers p.segs 0 p.capacity && posSizes p.segs

/-- Sum of the sizes of all segments in the ledger. -/
def segSum : List Segment → Nat
  | [] => 0
  | s :: rest => s.size + segSum rest

/-- No two adjacent segments of the ledger are both free. -/
def noAdjFree : List Segment → Bool
  | [] => true
  | [_] => true
  | a :: b :: rest => (!(a.free && b.free)) && noAdjFree (b :: rest)

/-- The first free segment of the ledger whose size is at least the
request (the segment first-fit selects). -/
def firstFitSeg : List Segment → Nat → Option Segment
  | [], _ => none
  | s :: rest, size =>
    if s.free = true ∧ size ≤ s.size then some s else firstFitSeg rest size

/-- The pool state right after a successful `mem_init n` (n positive):
one free segment covering everything, one descriptor consumed. -/
def demoPool (n : Nat) : Pool :=
  { capacity := n
    segs := [{ offset := 0, size := n, free := true }]
    freeNodes := MAX_SEGMENTS - 1 }

/-- Free capacity of a pool: the total size of its free segments. -/
def freeCap (p : Pool) : Nat :=
  segSum (p.segs.filter (fun s => s.free))

/-! ### Basic consequences of the coverage invariant -/

theorem covers_segSum : ∀ (segs : List Segment) (start stop : Nat),
    covers segs start stop = true → start + segSum segs = stop
  | [], start, stop, h => by
    simp [covers] at h
    simp [segSum, h]
  | s :: rest, start, stop, h => by
    simp only [covers, Bool.and_eq_true, beq_iff_eq] at h
    have ih := covers_segSum rest (start + s.size) stop h.2
    simp only [segSum]
    omega

theorem covers_mem_le : ∀ (segs : List Segment) (start stop : Nat),
    covers segs start stop = true → ∀ s ∈ segs, start ≤ s.offset
  | [], _, _, _, _, hs => by simp at hs
  | s :: rest, start, stop, h, b, hb => by
    simp only [covers, Bool.and_eq_true, beq_iff_eq] at h
    rcases List.mem_cons.mp hb with hb | hb
    · subst hb
      omega
    · have := covers_mem_le rest (start + s.size) stop h.2 b hb
      omega

theorem covers_pairwise : ∀ (segs : List Segment) (start stop : Nat),
    covers segs start stop = true →
    segs.Pairwise (fun a b => a.offset + a.size ≤ b.offset)
  | [], _, _, _ => List.Pairwise.nil
  | s :: rest, start, stop, h => by
    simp only [covers, Bool.and_eq_true, beq_iff_eq] at h
    refine List.Pairwise.cons ?_ (covers_pairwise rest (start + s.size) stop h.2)
    intro b hb
    have := covers_mem_le rest (start + s.size) stop h.2 b hb
    omega

theorem covers_ascending : ∀ (segs : List Segment) (start stop : Nat),
    covers segs start stop = true → posSizes segs = true →
    segs.Pairwise (fun a b => a.offset < b.offset)
  | [], _, _, _, _ => List.Pairwise.nil
  | s :: rest, start, stop, h, hp => by
    simp only [covers, Bool.and_eq_true, beq_iff_eq] at h
    simp only [posSizes, List.all_cons, Bool.and_eq_true, bne_iff_ne, ne_eq] at hp
    refine List.Pairwise.cons ?_
      (covers_ascending rest (start + s.size) stop h.2 (by
        simp only [posSizes]
        exact hp.2))
    intro b hb
    have := covers_mem_le rest (start + s.size) stop h.2 b hb
    omega

/-! ### The allocation scan preserves the invariant -/

theorem allocScan_covers (segs : List Segment) (fn size : Nat) :
    ∀ (off : Nat) (segs2 : List Segment) (fn2 start stop : Nat),
    allocScan segs fn size = some (off, segs2, fn2) →
    covers segs start stop = true → covers segs2 start stop = true := by
  induction segs with
  | nil =>
    intro off segs2 fn2 start stop h hc
    simp [allocScan] at h
  | cons cur rest ih =>
    intro off segs2 fn2 start stop h hc
    simp only [covers, Bool.and_eq_true, beq_iff_eq] at hc
    simp only [allocScan] at h
    split at h
    case isTrue hfit =>
      split at h
      case isTrue hex =>
        simp only [Option.some.injEq, Prod.mk.injEq] at h
        obtain ⟨h1, h2, h3⟩ := h
        subst h2
        simp only [covers, Bool.and_eq_true, beq_iff_eq]
        exact ⟨hc.1, hc.2⟩
      case isFalse hex =>
        split at h
        case isTrue hfn => exact Option.noConfusion h
        case isFalse hfn =>
          simp only [Option.some.injEq, Prod.mk.injEq] at h
          obtain ⟨h1, h2, h3⟩ := h
          subst h2
          simp only [covers, Bool.and_eq_true, beq_iff_eq]
          have hsz : size ≤ cur.size := hfit.2
          refine ⟨hc.1, by omega, ?_⟩
          have harith : start + size + (cur.size - size) = start + cur.size := by omega
          rw [harith]
          exact hc.2
    case isFalse hnfit =>
      split at h
      case h_1 => exact Option.noConfusion h
      case h_2 off1 rest2 fn1 hsome =>
        simp only [Option.some.injEq, Prod.mk.injEq] at h
        obtain ⟨h1, h2, h3⟩ := h
        subst h2
        simp only [covers, Bool.and_eq_true, beq_iff_eq]
        exact ⟨hc.1, ih off1 rest2 fn1 (start + cur.size) stop hsome hc.2⟩

theorem allocScan_posSizes (segs : List Segment) (fn size : Nat) :
    ∀ (off : Nat) (segs2 : List Segment) (fn2 : Nat),
    size ≠ 0 →
    allocScan segs fn size = some (off, segs2, fn2) →
    posSizes segs = true → posSizes segs2 = true := by
  induction segs with
  | nil =>
    intro off segs2 fn2 hsz h hp
    simp [allocScan] at h
  | cons cur rest ih =>
    intro off segs2 fn2 hsz h hp
    simp only [posSizes, List.all_cons, Bool.and_eq_true, bne_iff_ne, ne_eq] at hp
    simp only [allocScan] at h
    split at h
    case isTrue hfit =>
      split at h
      case isTrue hex =>
        simp only [Option.some.injEq, Prod.mk.injEq] at h
        obtain ⟨h1, h2, h3⟩ := h
        subst h2
        simp only [posSizes, List.all_cons, Bool.and_eq_true, bne_iff_ne, ne_eq]
        exact ⟨hp.1, hp.2⟩
      case isFalse hex =>
        split at h
        case isTrue hfn => exact Option.noConfusion h
        case isFalse hfn =>
          simp only [Option.some.injEq, Prod.mk.injEq] at h
          obtain ⟨h1, h2, h3⟩ := h
          subst h2
          simp only [posSizes, List.all_cons, Bool.and_eq_true, bne_iff_ne, ne_eq]
          have hsz2 : size ≤ cur.size := hfit.2
          exact ⟨hsz, by omega, hp.2⟩
    case isFalse hnfit =>
      split at h
      case h_1 => exact Option.noConfusion h
      case h_2 off1 rest2 fn1 hsome =>
        simp only [Option.some.injEq, Prod.mk.injEq] at h
        obtain ⟨h1, h2, h3⟩ := h
        subst h2
        simp only [posSizes, List.all_cons, Bool.and_eq_true, bne_iff_ne, ne_eq]
        exact ⟨hp.1, ih off1 rest2 fn1 hsz hsome hp.2⟩

theorem allocScan_firstFit (segs : List Segment) (fn size : Nat) :
    ∀ (off : Nat) (segs2 : List Segment) (fn2 : Nat),
    allocScan segs fn size = some (off, segs2, fn2) →
    ∃ s, firstFitSeg segs size = some s ∧ s.offset = off := by
  induction segs with
  | nil =>
    intro off segs2 fn2 h
    simp [allocScan] at h
  | cons cur rest ih =>
    intro off segs2 fn2 h
    simp only [allocScan] at h
    split at h
    case isTrue hfit =>
      refine ⟨cur, by simp [firstFitSeg, hfit], ?_⟩
      split at h
      case isTrue hex =>
        simp only [Option.some.injEq, Prod.mk.injEq] at h
        exact h.1
      case isFalse hex =>
        split at h
        case isTrue hfn => exact Option.noConfusion h
        case isFalse hfn =>
          simp only [Option.some.injEq, Prod.mk.injEq] at h
          exact h.1
    case isFalse hnfit =>
      split at h
      case h_1 => exact Option.noConfusion h
      case h_2 off1 rest2 fn1 hsome =>
        simp only [Option.some.injEq, Prod.mk.injEq] at h
        obtain ⟨s, hs, hso⟩ := ih off1 rest2 fn1 hsome
        exact ⟨s, by simp [firstFitSeg, hnfit, hs], by omega⟩

theorem firstFit_allocScan (segs : List Segment) (fn size : Nat) :
    ∀ (s : Segment),
    firstFitSeg segs size = some s →
    (fn ≠ 0 ∨ s.size = size) →
    ∃ segs2 fn2, allocScan segs fn size = some (s.offset, segs2, fn2) := by
  induction segs with
  | nil =>
    intro s h hd
    simp [firstFitSeg] at h
  | cons cur rest ih =>
    intro s h hd
    simp only [firstFitSeg] at h
    split at h
    case isTrue hfit =>
      simp only [Option.some.injEq] at h
      subst h
      by_cases hex : cur.size = size
      · exact ⟨{ cur with free := false } :: rest, fn,
          by simp [allocScan, hfit, hex]⟩
      · have hfn : fn ≠ 0 := by
          rcases hd with hd | hd
          · exact hd
          · exact absurd hd hex
        refine ⟨{ offset := cur.offset, size := size, free := false } ::
          { offset := cur.offset + size, size := cur.size - size, free := true } :: rest,
          fn - 1, ?_⟩
        simp only [allocScan]
        rw [if_pos hfit, if_neg hex, if_neg hfn]
    case isFalse hnfit =>
      obtain ⟨segs2, fn2, hs⟩ := ih s h hd
      refine ⟨cur :: segs2, fn2, ?_⟩
      simp only [allocScan]
      rw [if_neg hnfit, hs]

theorem allocScan_exhausted (segs : List Segment) (size : Nat) :
    ∀ (s : Segment),
    firstFitSeg segs size = some s →
    s.size ≠ size →
    allocScan segs 0 size = none := by
  induction segs with
  | nil =>
    intro s h hne
    simp [firstFitSeg] at h
  | cons cur rest ih =>
    intro s h hne
    simp only [firstFitSeg] at h
    split at h
    case isTrue hfit =>
      simp only [Option.some.injEq] at h
      subst h
      simp only [allocScan]
      rw [if_pos hfit, if_neg (by omega : ¬ cur.size = size)]
      simp
    case isFalse hnfit =>
      simp only [allocScan]
      rw [if_neg hnfit, ih s h hne]

theorem allocScan_none_of_firstFit_none (segs : List Segment) (fn size : Nat) :
    firstFitSeg segs size = none → allocScan segs fn size = none := by
  induction segs with
  | nil =>
    intro h
    simp [allocScan]
  | cons cur rest ih =>
    intro h
    simp only [firstFitSeg] at h
    split at h
    case isTrue hfit => exact Option.noConfusion h
    case isFalse hnfit =>
      simp only [allocScan]
      rw [if_neg hnfit, ih h]

theorem allocScan_offset_ge (segs : List Segment) (fn size : Nat) :
    ∀ (off : Nat) (segs2 : List Segment) (fn2 start stop : Nat),
    covers segs start stop = true →
    allocScan segs fn size = some (off, segs2, fn2) →
    start ≤ off := by
  induction segs with
  | nil =>
    intro off segs2 fn2 start stop hc h
    simp [allocScan] at h
  | cons cur rest ih =>
    intro off segs2 fn2 start stop hc h
    simp only [covers, Bool.and_eq_true, beq_iff_eq] at hc
    simp only [allocScan] at h
    split at h
    case isTrue hfit =>
      split at h
      case isTrue hex =>
        simp only [Option.some.injEq, Prod.mk.injEq] at h
        omega
      case isFalse hex =>
        split at h
        case isTrue hfn => exact Option.noConfusion h
        case isFalse hfn =>
          simp only [Option.some.injEq, Prod.mk.injEq] at h
          omega
    case isFalse hnfit =>
      split at h
      case h_1 => exact Option.noConfusion h
      case h_2 off1 rest2 fn1 hsome =>
        simp only [Option.some.injEq, Prod.mk.injEq] at h
        have := ih off1 rest2 fn1 (start + cur.size) stop hc.2 hsome
        omega

theorem allocScan_findSeg (segs : List Segment) (fn size : Nat) :
    ∀ (off : Nat) (segs2 : List Segment) (fn2 start stop : Nat),
    covers segs start stop = true →
    posSizes segs = true →
    allocScan segs fn size = some (off, segs2, fn2) →
    findSeg segs2 off = some { offset := off, size := size, free := false } := by
  induction segs with
  | nil =>
    intro off segs2 fn2 start stop hc hp h
    simp [allocScan] at h
  | cons cur rest ih =>
    intro off segs2 fn2 start stop hc hp h
    simp only [covers, Bool.and_eq_true, beq_iff_eq] at hc
    simp only [posSizes, List.all_cons, Bool.and_eq_true, bne_iff_ne, ne_eq] at hp
    simp only [allocScan] at h
    split at h
    case isTrue hfit =>
      split at h
      case isTrue hex =>
        simp only [Option.some.injEq, Prod.mk.injEq] at h
        obtain ⟨h1, h2, h3⟩ := h
        subst h2
        simp only [findSeg, if_pos h1]
        simp only [Option.some.injEq]
        cases cur with
        | mk o sz f =>
          simp only at h1 hex
          simp [h1, hex]
      case isFalse hex =>
        split at h
        case isTrue hfn => exact Option.noConfusion h
        case isFalse hfn =>
          simp only [Option.some.injEq, Prod.mk.injEq] at h
          obtain ⟨h1, h2, h3⟩ := h
          subst h2
          simp [findSeg, if_pos h1, h1]
    case isFalse hnfit =>
      split at h
      case h_1 => exact Option.noConfusion h
      case h_2 off1 rest2 fn1 hsome =>
        simp only [Option.some.injEq, Prod.mk.injEq] at h
        obtain ⟨h1, h2, h3⟩ := h
        subst h2
        have hge := allocScan_offset_ge rest fn size off1 rest2 fn1
          (start + cur.size) stop hc.2 hsome
        have hcuroff : cur.offset ≠ off := by omega
        simp only [findSeg, if_neg (by omega : ¬ cur.offset = off)]
        subst h1
        exact ih off1 rest2 fn1 (start + cur.size) stop hc.2 hp.2 hsome

theorem firstFitSeg_mem (segs : List Segment) (sz : Nat) :
    ∀ s, firstFitSeg segs sz = some s → s ∈ segs ∧ s.free = true := by
  induction segs with
  | nil =>
    intro s h
    simp [firstFitSeg] at h
  | cons cur rest ih =>
    intro s h
    simp only [firstFitSeg] at h
    split at h
    case isTrue hfit =>
      obtain rfl := Option.some.inj h
      exact ⟨List.mem_cons_self cur rest, hfit.1⟩
    case isFalse hnfit =>
      obtain ⟨h1, h2⟩ := ih s h
      exact ⟨List.mem_cons_of_mem cur h1, h2⟩

theorem findSeg_mem (segs : List Segment) (off : Nat) :
    ∀ t, findSeg segs off = some t → t ∈ segs ∧ t.offset = off := by
  induction segs with
  | nil =>
    intro t h
    simp [findSeg] at h
  | cons cur rest ih =>
    intro t h
    simp only [findSeg] at h
    split at h
    case isTrue hoff =>
      obtain rfl := Option.some.inj h
      exact ⟨List.mem_cons_self cur rest, hoff⟩
    case isFalse hoff =>
      obtain ⟨h1, h2⟩ := ih t h
      exact ⟨List.mem_cons_of_mem cur h1, h2⟩

theorem offsets_unique (segs : List Segment) :
    ∀ (s t : Segment),
    List.Pairwise (fun a b => a.offset < b.offset) segs →
    s ∈ segs → t ∈ segs → s.offset = t.offset → s = t := by
  induction segs with
  | nil =>
    intro s t hp hs ht heq
    simp at hs
  | cons cur rest ih =>
    intro s t hp hs ht heq
    have hp2 := List.pairwise_cons.mp hp
    rcases List.mem_cons.mp hs with rfl | hs2
    · rcases List.mem_cons.mp ht with rfl | ht2
      · rfl
      · have := hp2.1 t ht2
        exact absurd heq (by omega)
    · rcases List.mem_cons.mp ht with rfl | ht2
      · have := hp2.1 s hs2
        exact absurd heq (by omega)
      · exact ih s t hp2.2 hs2 ht2 heq

theorem allocScan_freeCap (segs : List Segment) (fn sz : Nat) :
    ∀ (off : Nat) (segs2 : List Segment) (fn2 : Nat),
    allocScan segs fn sz = some (off, segs2, fn2) →
    segSum (segs2.filter (fun s => s.free)) + sz =
      segSum (segs.filter (fun s => s.free)) := by
  induction segs with
  | nil =>
    intro off segs2 fn2 h
    simp [allocScan] at h
  | cons cur rest ih =>
    intro off segs2 fn2 h
    simp only [allocScan] at h
    split at h
    case isTrue hfit =>
      split at h
      case isTrue hex =>
        simp only [Option.some.injEq, Prod.mk.injEq] at h
        obtain ⟨h1, h2, h3⟩ := h
        subst h2
        rw [List.filter_cons, List.filter_cons]
        simp only [hfit.1, segSum]
        simp only [show (({ cur with free := false } : Segment).free = true) = False by simp,
          if_false, eq_self_iff_true, if_true, segSum]
        omega
      case isFalse hex =>
        split at h
        case isTrue hfn => exact Option.noConfusion h
        case isFalse hfn =>
          simp only [Option.some.injEq, Prod.mk.injEq] at h
          obtain ⟨h1, h2, h3⟩ := h
          subst h2
          rw [List.filter_cons, List.filter_cons, List.filter_cons]
          simp only [hfit.1, eq_self_iff_true, if_true]
          simp only [show ((false : Bool) = true) = False by simp, if_false, segSum]
          have hle : sz ≤ cur.size := hfit.2
          omega
    case isFalse hnfit =>
      split at h
      case h_1 => exact Option.noConfusion h
      case h_2 off1 rest2 fn1 hsome =>
        simp only [Option.some.injEq, Prod.mk.injEq] at h
        obtain ⟨h1, h2, h3⟩ := h
        subst h2
        have := ih off1 rest2 fn1 hsome
        rw [List.filter_cons, List.filter_cons]
        cases hcf : cur.free with
        | false =>
          simp only [hcf, show ((false : Bool) = true) = False by simp, if_false]
          exact this
        | true =>
          simp only [hcf, eq_self_iff_true, if_true, segSum]
          omega

/-- Sanity check: initialising a 300-byte pool yields one free segment. -/
theorem mem_init_300_eval : mem_init 300 none = some (demoPool 300) := by decide

/-- Sanity check: a 100-byte allocation splits the initial free segment. -/
theorem mem_alloc_split_eval :
    mem_alloc { capacity := 300, segs := [{ offset := 0, size := 300, free := true }],
                freeNodes := 7 } 100 =
      (some 0,
       { capacity := 300,
         segs := [{ offset := 0, size := 100, free := false },
                  { offset := 100, size := 200, free := true }],
         freeNodes := 6 }) := by decide

/-! ### Coalescing preserves the invariant and kills adjacent free pairs -/

theorem coalesceAux_covers (l : List Segment) :
    ∀ (cur : Segment) (fn start stop : Nat),
    covers (cur :: l) start stop = true →
    covers (coalesceAux cur l fn).1 start stop = true := by
  induction l with
  | nil =>
    intro cur fn start stop h
    simpa [coalesceAux] using h
  | cons next rest ih =>
    intro cur fn start stop h
    simp only [covers, Bool.and_eq_true, beq_iff_eq] at h
    obtain ⟨h1, h2, h3⟩ := h
    simp only [coalesceAux]
    split
    case isTrue hm =>
      apply ih
      simp only [covers, Bool.and_eq_true, beq_iff_eq]
      refine ⟨h1, ?_⟩
      have harith : start + (cur.size + next.size) = start + cur.size + next.size := by omega
      rw [harith]
      exact h3
    case isFalse hm =>
      show covers (cur :: (coalesceAux next rest fn).1) start stop = true
      simp only [covers, Bool.and_eq_true, beq_iff_eq]
      refine ⟨h1, ?_⟩
      exact ih next fn (start + cur.size) stop (by
        simp only [covers, Bool.and_eq_true, beq_iff_eq]
        exact ⟨h2, h3⟩)

theorem coalesce_covers (segs : List Segment) (fn : Nat) :
    ∀ (start stop : Nat),
    covers segs start stop = true → covers (coalesce segs fn).1 start stop = true := by
  cases segs with
  | nil =>
    intro start stop h
    simpa [coalesce] using h
  | cons cur rest =>
    intro start stop h
    exact coalesceAux_covers rest cur fn start stop h

theorem coalesceAux_posSizes (l : List Segment) :
    ∀ (cur : Segment) (fn : Nat),
    posSizes (cur :: l) = true → posSizes (coalesceAux cur l fn).1 = true := by
  induction l with
  | nil =>
    intro cur fn h
    simpa [coalesceAux] using h
  | cons next rest ih =>
    intro cur fn h
    simp only [posSizes, List.all_cons, Bool.and_eq_true, bne_iff_ne, ne_eq] at h
    simp only [coalesceAux]
    split
    case isTrue hm =>
      apply ih
      simp only [posSizes, List.all_cons, Bool.and_eq_true, bne_iff_ne, ne_eq]
      exact ⟨by omega, h.2.2⟩
    case isFalse hm =>
      show posSizes (cur :: (coalesceAux next rest fn).1) = true
      simp only [posSizes, List.all_cons, Bool.and_eq_true, bne_iff_ne, ne_eq]
      refine ⟨h.1, ?_⟩
      have := ih next fn (by
        simp only [posSizes, List.all_cons, Bool.and_eq_true, bne_iff_ne, ne_eq]
        exact h.2)
      simpa [posSizes] using this

theorem coalesce_posSizes (segs : List Segment) (fn : Nat) :
    posSizes segs = true → posSizes (coalesce segs fn).1 = true := by
  cases segs with
  | nil =>
    intro h
    simpa [coalesce] using h
  | cons cur rest =>
    intro h
    exact coalesceAux_posSizes rest cur fn h

theorem coalesceAux_head (l : List Segment) :
    ∀ (cur : Segment) (fn : Nat),
    ∃ sz tail, (coalesceAux cur l fn).1 =
      { offset := cur.offset, size := sz, free := cur.free } :: tail := by
  induction l with
  | nil =>
    intro cur fn
    exact ⟨cur.size, [], rfl⟩
  | cons next rest ih =>
    intro cur fn
    simp only [coalesceAux]
    split
    case isTrue hm =>
      obtain ⟨sz, tail, ht⟩ := ih { cur with size := cur.size + next.size } (fn + 1)
      exact ⟨sz, tail, ht⟩
    case isFalse hm =>
      exact ⟨cur.size, (coalesceAux next rest fn).1, rfl⟩

theorem coalesceAux_noAdjFree (l : List Segment) :
    ∀ (cur : Segment) (fn start stop : Nat),
    covers (cur :: l) start stop = true →
    noAdjFree (coalesceAux cur l fn).1 = true := by
  induction l with
  | nil =>
    intro cur fn start stop h
    simp [coalesceAux, noAdjFree]
  | cons next rest ih =>
    intro cur fn start stop h
    simp only [covers, Bool.and_eq_true, beq_iff_eq] at h
    obtain ⟨h1, h2, h3⟩ := h
    simp only [coalesceAux]
    split
    case isTrue hm =>
      apply ih { cur with size := cur.size + next.size } (fn + 1) start stop
      simp only [covers, Bool.and_eq_true, beq_iff_eq]
      refine ⟨h1, ?_⟩
      have harith : start + (cur.size + next.size) = start + cur.size + next.size := by omega
      rw [harith]
      exact h3
    case isFalse hm =>
      show noAdjFree (cur :: (coalesceAux next rest fn).1) = true
      have hnadj := ih next fn (start + cur.size) stop (by
        simp only [covers, Bool.and_eq_true, beq_iff_eq]
        exact ⟨h2, h3⟩)
      obtain ⟨sz, tail, ht⟩ := coalesceAux_head rest next fn
      rw [ht] at hnadj ⊢
      simp only [noAdjFree, Bool.and_eq_true] at hnadj ⊢
      refine ⟨?_, hnadj⟩
      have hcontig : cur.offset + cur.size = next.offset := by omega
      cases hcf : cur.free
      · simp
      · cases hnf : next.free
        · simp
        · exact absurd ⟨hcf, hnf, hcontig⟩ hm

theorem coalesce_noAdjFree (segs : List Segment) (fn : Nat) :
    ∀ (start stop : Nat), covers segs start stop = true →
    noAdjFree (coalesce segs fn).1 = true := by
  cases segs with
  | nil =>
    intro start stop h
    simp [coalesce, noAdjFree]
  | cons cur rest =>
    intro start stop h
    exact coalesceAux_noAdjFree rest cur fn start stop h

/-! ### Marking a segment free preserves the invariant -/

theorem markFree_covers (segs : List Segment) (off : Nat) :
    ∀ (start stop : Nat), covers segs start stop = true →
    covers (markFree segs off) start stop = true := by
  induction segs with
  | nil =>
    intro start stop h
    simpa [markFree] using h
  | cons cur rest ih =>
    intro start stop h
    simp only [covers, Bool.and_eq_true, beq_iff_eq] at h
    simp only [markFree]
    split
    · simp only [covers, Bool.and_eq_true, beq_iff_eq]
      exact ⟨h.1, h.2⟩
    · simp only [covers, Bool.and_eq_true, beq_iff_eq]
      exact ⟨h.1, ih (start + cur.size) stop h.2⟩

theorem markFree_posSizes (segs : List Segment) (off : Nat) :
    posSizes segs = true → posSizes (markFree segs off) = true := by
  induction segs with
  | nil =>
    intro h
    simpa [markFree] using h
  | cons cur rest ih =>
    intro h
    simp only [posSizes, List.all_cons, Bool.and_eq_true, bne_iff_ne, ne_eq] at h
    simp only [markFree]
    split
    · simp only [posSizes, List.all_cons, Bool.and_eq_true, bne_iff_ne, ne_eq]
      exact ⟨h.1, h.2⟩
    · simp only [posSizes, List.all_cons, Bool.and_eq_true, bne_iff_ne, ne_eq]
      exact ⟨h.1, ih h.2⟩

/-! ### Well-formedness is preserved by the public operations -/

theorem adjSize_ne_zero (n : Nat) : adjSize n ≠ 0 := by
  simp only [adjSize]
  split <;> omega

theorem mem_alloc_wf (p : Pool) (n : Nat) (hw : wf p = true) :
    wf (mem_alloc p n).2 = true := by
  simp only [wf, Bool.and_eq_true] at hw
  simp only [mem_alloc]
  split
  · simp only [wf, Bool.and_eq_true]
    exact ⟨hw.1, hw.2⟩
  case h_2 off segs2 fn2 heq =>
    simp only [wf, Bool.and_eq_true]
    exact ⟨allocScan_covers p.segs p.freeNodes (adjSize n) off segs2 fn2 0 p.capacity heq hw.1,
      allocScan_posSizes p.segs p.freeNodes (adjSize n) off segs2 fn2 (adjSize_ne_zero n) heq hw.2⟩

theorem mem_free_wf (p : Pool) (off : Nat) (hw : wf p = true) :
    wf (mem_free p off) = true := by
  simp only [wf, Bool.and_eq_true] at hw
  simp only [mem_free]
  split
  · simp only [wf, Bool.and_eq_true]
    exact ⟨hw.1, hw.2⟩
  · split
    · simp only [wf, Bool.and_eq_true]
      exact ⟨hw.1, hw.2⟩
    · simp only [wf, Bool.and_eq_true]
      exact ⟨coalesce_covers (markFree p.segs off) p.freeNodes 0 p.capacity
          (markFree_covers p.segs off 0 p.capacity hw.1),
        coalesce_posSizes (markFree p.segs off) p.freeNodes
          (markFree_posSizes p.segs off hw.2)⟩

/-! ### The in-place resize paths preserve the invariant -/

theorem resizeScan_covers (segs : List Segment) (fn off size : Nat) :
    ∀ (r : Nat) (segs2 : List Segment) (fn2 : Nat) (c : Bool) (start stop : Nat),
    resizeScan segs fn off size = RMid.done r segs2 fn2 c →
    covers segs start stop = true → covers segs2 start stop = true := by
  induction segs with
  | nil =>
    intro r segs2 fn2 c start stop h hc
    simp [resizeScan] at h
  | cons seg rest ih =>
    intro r segs2 fn2 c start stop h hc
    simp only [covers, Bool.and_eq_true, beq_iff_eq] at hc
    simp only [resizeScan] at h
    split at h
    case isTrue hoff =>
      split at h
      case isTrue hle =>
        split at h
        case isTrue hrem =>
          obtain ⟨hr, h2, hf, hcb⟩ := RMid.done.inj h
          subst h2
          simp only [covers, Bool.and_eq_true, beq_iff_eq]
          exact ⟨hc.1, hc.2⟩
        case isFalse hrem =>
          split at h
          case isTrue hfn =>
            obtain ⟨hr, h2, hf, hcb⟩ := RMid.done.inj h
            subst h2
            simp only [covers, Bool.and_eq_true, beq_iff_eq]
            exact ⟨hc.1, hc.2⟩
          case isFalse hfn =>
            obtain ⟨hr, h2, hf, hcb⟩ := RMid.done.inj h
            subst h2
            simp only [covers, Bool.and_eq_true, beq_iff_eq]
            refine ⟨hc.1, by omega, ?_⟩
            have harith : start + size + (seg.size - size) = start + seg.size := by omega
            rw [harith]
            exact hc.2
      case isFalse hgt =>
        split at h
        case h_1 next rest2 =>
          split at h
          case isTrue hgrow =>
            simp only [covers, Bool.and_eq_true, beq_iff_eq] at hc
            split at h
            case isTrue hexact =>
              obtain ⟨hr, h2, hf, hcb⟩ := RMid.done.inj h
              subst h2
              simp only [covers, Bool.and_eq_true, beq_iff_eq]
              obtain ⟨hc1, hc2, hc3⟩ := hc
              refine ⟨hc1, ?_⟩
              have harith : start + size = start + seg.size + next.size := by omega
              rw [harith]
              exact hc3
            case isFalse hexact =>
              obtain ⟨hr, h2, hf, hcb⟩ := RMid.done.inj h
              subst h2
              simp only [covers, Bool.and_eq_true, beq_iff_eq]
              obtain ⟨hc1, hc2, hc3⟩ := hc
              have hle2 : size ≤ seg.size + next.size := hgrow.2.2
              refine ⟨hc1, by omega, ?_⟩
              have harith : start + size + (seg.size + next.size - size) =
                  start + seg.size + next.size := by omega
              rw [harith]
              exact hc3
          case isFalse hgrow => exact RMid.noConfusion h
        case h_2 => exact RMid.noConfusion h
    case isFalse hoff =>
      split at h
      case h_1 => exact RMid.noConfusion h
      case h_2 r1 segs1 fn1 c1 hsome =>
        obtain ⟨hr, h2, hf, hcb⟩ := RMid.done.inj h
        subst h2
        simp only [covers, Bool.and_eq_true, beq_iff_eq]
        exact ⟨hc.1, ih r1 segs1 fn1 c1 (start + seg.size) stop hsome hc.2⟩
      case h_3 => exact RMid.noConfusion h

theorem resizeScan_posSizes (segs : List Segment) (fn off size : Nat) :
    ∀ (r : Nat) (segs2 : List Segment) (fn2 : Nat) (c : Bool),
    size ≠ 0 →
    resizeScan segs fn off size = RMid.done r segs2 fn2 c →
    posSizes segs = true → posSizes segs2 = true := by
  induction segs with
  | nil =>
    intro r segs2 fn2 c hsz h hp
    simp [resizeScan] at h
  | cons seg rest ih =>
    intro r segs2 fn2 c hsz h hp
    simp only [posSizes, List.all_cons, Bool.and_eq_true, bne_iff_ne, ne_eq] at hp
    simp only [resizeScan] at h
    split at h
    case isTrue hoff =>
      split at h
      case isTrue hle =>
        split at h
        case isTrue hrem =>
          obtain ⟨hr, h2, hf, hcb⟩ := RMid.done.inj h
          subst h2
          simp only [posSizes, List.all_cons, Bool.and_eq_true, bne_iff_ne, ne_eq]
          exact ⟨hp.1, hp.2⟩
        case isFalse hrem =>
          split at h
          case isTrue hfn =>
            obtain ⟨hr, h2, hf, hcb⟩ := RMid.done.inj h
            subst h2
            simp only [posSizes, List.all_cons, Bool.and_eq_true, bne_iff_ne, ne_eq]
            exact ⟨hp.1, hp.2⟩
          case isFalse hfn =>
            obtain ⟨hr, h2, hf, hcb⟩ := RMid.done.inj h
            subst h2
            simp only [posSizes, List.all_cons, Bool.and_eq_true, bne_iff_ne, ne_eq]
            exact ⟨hsz, by omega, hp.2⟩
      case isFalse hgt =>
        split at h
        case h_1 next rest2 =>
          split at h
          case isTrue hgrow =>
            simp only [posSizes, List.all_cons, Bool.and_eq_true, bne_iff_ne, ne_eq] at hp
            split at h
            case isTrue hexact =>
              obtain ⟨hr, h2, hf, hcb⟩ := RMid.done.inj h
              subst h2
              simp only [posSizes, List.all_cons, Bool.and_eq_true, bne_iff_ne, ne_eq]
              exact ⟨hsz, hp.2.2⟩
            case isFalse hexact =>
              obtain ⟨hr, h2, hf, hcb⟩ := RMid.done.inj h
              subst h2
              simp only [posSizes, List.all_cons, Bool.and_eq_true, bne_iff_ne, ne_eq]
              have hle2 : size ≤ seg.size + next.size := hgrow.2.2
              exact ⟨hsz, by omega, hp.2.2⟩
          case isFalse hgrow => exact RMid.noConfusion h
        case h_2 => exact RMid.noConfusion h
    case isFalse hoff =>
      split at h
      case h_1 => exact RMid.noConfusion h
      case h_2 r1 segs1 fn1 c1 hsome =>
        obtain ⟨hr, h2, hf, hcb⟩ := RMid.done.inj h
        subst h2
        simp only [posSizes, List.all_cons, Bool.and_eq_true, bne_iff_ne, ne_eq]
        exact ⟨hp.1, ih r1 segs1 fn1 c1 hsz hsome hp.2⟩
      case h_3 => exact RMid.noConfusion h

theorem mem_resize_wf (p : Pool) (off size : Nat) (hw : wf p = true) :
    wf (mem_resize p off size).2 = true := by
  simp only [mem_resize]
  split
  case isTrue hsz =>
    split
    case h_1 p2 heq =>
      have := mem_alloc_wf p 1 hw
      rw [heq] at this
      exact this
    case h_2 noff p2 heq =>
      have hw2 : wf p2 = true := by
        have := mem_alloc_wf p 1 hw
        rw [heq] at this
        exact this
      exact mem_free_wf p2 off hw2
  case isFalse hsz =>
    split
    case isTrue hcap => exact hw
    case isFalse hcap =>
      split
      case h_1 => exact hw
      case h_2 r segs2 fn2 c heq =>
        simp only [wf, Bool.and_eq_true] at hw
        split
        case isTrue hc =>
          simp only [wf, Bool.and_eq_true]
          refine ⟨coalesce_covers segs2 fn2 0 p.capacity ?_,
            coalesce_posSizes segs2 fn2 ?_⟩
          · exact resizeScan_covers p.segs p.freeNodes off size r segs2 fn2 c 0 p.capacity heq hw.1
          · exact resizeScan_posSizes p.segs p.freeNodes off size r segs2 fn2 c hsz heq hw.2
        case isFalse hc =>
          simp only [wf, Bool.and_eq_true]
          exact ⟨resizeScan_covers p.segs p.freeNodes off size r segs2 fn2 c 0 p.capacity heq hw.1,
            resizeScan_posSizes p.segs p.freeNodes off size r segs2 fn2 c hsz heq hw.2⟩
      case h_3 heq =>
        split
        case h_1 p2 heq2 =>
          have := mem_alloc_wf p size hw
          rw [heq2] at this
          exact this
        case h_2 noff p2 heq2 =>
          have hw2 : wf p2 = true := by
            have := mem_alloc_wf p size hw
            rw [heq2] at this
            exact this
          exact mem_free_wf p2 off hw2

/-! ### Failure leaves the state unchanged -/

theorem mem_alloc_none (p : Pool) (n : Nat) (ro : Option Nat) (p2 : Pool)
    (h : mem_alloc p n = (ro, p2)) (hro : ro = none) : p2 = p := by
  subst hro
  simp only [mem_alloc] at h
  split at h
  · injection h with h1 h2
    exact h2.symm
  case h_2 off segs2 fn2 heq =>
    injection h with h1 h2
    exact Option.noConfusion h1

theorem resizeScan_notFound (segs : List Segment) (fn off size : Nat) :
    findSeg segs off = none →
    resizeScan segs fn off size = RMid.notFound := by
  induction segs with
  | nil =>
    intro h
    simp [resizeScan]
  | cons seg rest ih =>
    intro h
    simp only [findSeg] at h
    split at h
    · exact Option.noConfusion h
    case isFalse hoff =>
      simp only [resizeScan]
      rw [if_neg hoff, ih h]

/-! ### Claim theorems -/

/-- C1: for every live (well-formed) pool the block ledger partitions
[0, capacity): the sum of the segment sizes equals the capacity, the
segments are pairwise disjoint and in strictly ascending offset order
(each beginning where the previous ends, which is what `covers` states),
and each of `mem_alloc`, `mem_free` and `mem_resize` preserves this
well-formedness. -/
theorem C1_ledger_partitions (p : Pool) (n off ns : Nat) (hw : wf p = true) :
    segSum p.segs = p.capacity ∧
    List.Pairwise (fun a b => a.offset + a.size ≤ b.offset) p.segs ∧
    List.Pairwise (fun a b => a.offset < b.offset) p.segs ∧
    wf (mem_alloc p n).2 = true ∧
    wf (mem_free p off) = true ∧
    wf (mem_resize p off ns).2 = true := by
  have hw2 := hw
  simp only [wf, Bool.and_eq_true] at hw2
  have hsum := covers_segSum p.segs 0 p.capacity hw2.1
  exact ⟨by omega, covers_pairwise p.segs 0 p.capacity hw2.1,
    covers_ascending p.segs 0 p.capacity hw2.1 hw2.2,
    mem_alloc_wf p n hw, mem_free_wf p off hw, mem_resize_wf p off ns hw⟩

theorem C1_ledger_partitions_witness :
    segSum (demoPool 300).segs = (demoPool 300).capacity ∧
    List.Pairwise (fun a b => a.offset + a.size ≤ b.offset) (demoPool 300).segs ∧
    List.Pairwise (fun a b => a.offset < b.offset) (demoPool 300).segs ∧
    wf (mem_alloc (demoPool 300) 100).2 = true ∧
    wf (mem_free (demoPool 300) 0) = true ∧
    wf (mem_resize (demoPool 300) 0 50).2 = true :=
  C1_ledger_partitions (demoPool 300) 100 0 50 (by decide)

/-- C2 counterexample: the code treats `mem_alloc 0` as a one-byte
allocation, not as a sentinel.  On a fresh 10-byte pool the first
`mem_alloc 0` returns offset 0 and the second returns offset 1 — two
distinct pointer values — and each call shrinks the free capacity
(10 to 9 to 8), contradicting the claimed fixed sentinel and unchanged
free capacity. -/
theorem C2_counterexample :
    (mem_alloc (demoPool 10) 0).1 = some 0 ∧
    (mem_alloc (mem_alloc (demoPool 10) 0).2 0).1 = some 1 ∧
    freeCap (demoPool 10) = 10 ∧
    freeCap (mem_alloc (demoPool 10) 0).2 = 9 ∧
    freeCap (mem_alloc (mem_alloc (demoPool 10) 0).2 0).2 = 8 := by decide

/-- C2 amended: a zero-size request is handled exactly like a one-byte
request (the `size = 1` substitution at the top of `mem_alloc`), so
there is no sentinel: on any well-formed pool, a successful `mem_alloc 0`
creates a real used block of exactly one byte at the returned offset,
shrinks the pool's free capacity by one byte, and a second `mem_alloc 0`
can never return the same pointer value, because the block at that
offset is now used. -/
theorem C2_amended_zero_alloc :
    (∀ p : Pool, mem_alloc p 0 = mem_alloc p 1) ∧
    (∀ (p : Pool) (off : Nat) (p2 : Pool), wf p = true →
      mem_alloc p 0 = (some off, p2) →
      findSeg p2.segs off = some { offset := off, size := 1, free := false } ∧
      freeCap p2 + 1 = freeCap p ∧
      (mem_alloc p2 0).1 ≠ some off) := by
  constructor
  · intro p
    rfl
  · intro p off p2 hw h
    have hw2 := hw
    simp only [wf, Bool.and_eq_true] at hw2
    simp only [mem_alloc] at h
    split at h
    · injection h with h1 h2
      exact Option.noConfusion h1
    case h_2 off1 segs2 fn1 heq =>
      injection h with h1 h2
      have hoff : off1 = off := Option.some.inj h1
      subst hoff
      subst h2
      have hfind := allocScan_findSeg p.segs p.freeNodes (adjSize 0) off1 segs2 fn1 0 p.capacity
        hw2.1 hw2.2 heq
      refine ⟨hfind, ?_, ?_⟩
      · have := allocScan_freeCap p.segs p.freeNodes (adjSize 0) off1 segs2 fn1 heq
        simpa [freeCap, adjSize] using this
      · intro hcontra
        have hcov2 := allocScan_covers p.segs p.freeNodes (adjSize 0) off1 segs2 fn1 0 p.capacity
          heq hw2.1
        have hpos2 := allocScan_posSizes p.segs p.freeNodes (adjSize 0) off1 segs2 fn1
          (adjSize_ne_zero 0) heq hw2.2
        have hasc := covers_ascending segs2 0 p.capacity hcov2 hpos2
        simp only [mem_alloc] at hcontra
        split at hcontra
        · exact Option.noConfusion hcontra
        case h_2 off2 segs3 fn3 heq2 =>
          have hoff2 : off2 = off1 := Option.some.inj hcontra
          subst hoff2
          obtain ⟨s, hs, hsoff⟩ := allocScan_firstFit segs2 fn1 (adjSize 0) off2 segs3 fn3 heq2
          obtain ⟨hsmem, hsfree⟩ := firstFitSeg_mem segs2 (adjSize 0) s hs
          obtain ⟨htmem, htoff⟩ :=
            findSeg_mem segs2 off2 { offset := off2, size := 1, free := false } hfind
          have hst : s = { offset := off2, size := 1, free := false } :=
            offsets_unique segs2 s { offset := off2, size := 1, free := false } hasc
              hsmem htmem (by simpa using hsoff)
          rw [hst] at hsfree
          exact Bool.noConfusion hsfree

theorem C2_amended_zero_alloc_witness :
    findSeg { capacity := 10
              segs := [{ offset := 0, size := 1, free := false },
                       { offset := 1, size := 9, free := true }]
              freeNodes := 65534 : Pool }.segs 0 =
      some { offset := 0, size := 1, free := false } ∧
    freeCap { capacity := 10
              segs := [{ offset := 0, size := 1, free := false },
                       { offset := 1, size := 9, free := true }]
              freeNodes := 65534 : Pool } + 1 = freeCap (demoPool 10) ∧
    (mem_alloc { capacity := 10
                 segs := [{ offset := 0, size := 1, free := false },
                          { offset := 1, size := 9, free := true }]
                 freeNodes := 65534 : Pool } 0).1 ≠ some 0 :=
  C2_amended_zero_alloc.2 (demoPool 10) 0
    { capacity := 10
      segs := [{ offset := 0, size := 1, free := false },
               { offset := 1, size := 9, free := true }]
      freeNodes := 65534 } (by decide) (by decide)

/-- C3: after `mem_free` returns, no two adjacent segments of the
ledger are both free.  The hypotheses state that the pool is live and
satisfied the no-adjacent-free invariant before the call (true of every
reachable pool); when the freed offset is found, `coalesce` alone
re-establishes the invariant from coverage. -/
theorem C3_free_no_adjacent_free (p : Pool) (off : Nat) (hw : wf p = true)
    (hn : noAdjFree p.segs = true) :
    noAdjFree (mem_free p off).segs = true := by
  simp only [wf, Bool.and_eq_true] at hw
  simp only [mem_free]
  split
  · exact hn
  · split
    · exact hn
    · exact coalesce_noAdjFree (markFree p.segs off) p.freeNodes 0 p.capacity
        (markFree_covers p.segs off 0 p.capacity hw.1)

theorem C3_free_no_adjacent_free_witness :
    noAdjFree (mem_free
      { capacity := 300
        segs := [{ offset := 0, size := 100, free := false },
                 { offset := 100, size := 100, free := false },
                 { offset := 200, size := 100, free := true }]
        freeNodes := 65533 } 100).segs = true :=
  C3_free_no_adjacent_free
    { capacity := 300
      segs := [{ offset := 0, size := 100, free := false },
               { offset := 100, size := 100, free := false },
               { offset := 200, size := 100, free := true }]
      freeNodes := 65533 } 100 (by decide) (by decide)

/-- C4: `mem_alloc` is first fit.  (1) Whenever it succeeds, the offset
returned is the offset of the first free segment (in ledger order, which
is ascending offset order for well-formed pools) whose size is at least
the adjusted request.  (2) Whenever such a segment exists and a metadata
descriptor is available, the allocation succeeds with that offset.
(3) The concrete scenario: after three 100-byte allocations A, B, C from
a 300-byte pool and a free of B, the next 100-byte allocation returns
offset 100 — B's old address. -/
theorem C4_first_fit :
    (∀ (p : Pool) (n off : Nat) (p2 : Pool),
      mem_alloc p n = (some off, p2) →
      ∃ s, firstFitSeg p.segs (adjSize n) = some s ∧ s.offset = off) ∧
    (∀ (p : Pool) (n : Nat) (s : Segment),
      firstFitSeg p.segs (adjSize n) = some s → p.freeNodes ≠ 0 →
      (mem_alloc p n).1 = some s.offset) ∧
    ((mem_alloc (demoPool 300) 100).1 = some 0 ∧
     (mem_alloc (mem_alloc (demoPool 300) 100).2 100).1 = some 100 ∧
     (mem_alloc (mem_alloc (mem_alloc (demoPool 300) 100).2 100).2 100).1 = some 200 ∧
     (mem_alloc (mem_free
       (mem_alloc (mem_alloc (mem_alloc (demoPool 300) 100).2 100).2 100).2 100) 100).1 =
       some 100) := by
  refine ⟨?_, ?_, by decide⟩
  · intro p n off p2 h
    simp only [mem_alloc] at h
    split at h
    · injection h with h1 h2
      exact Option.noConfusion h1
    case h_2 off1 segs2 fn1 heq =>
      injection h with h1 h2
      obtain ⟨s, hs, hso⟩ := allocScan_firstFit p.segs p.freeNodes (adjSize n) off1 segs2 fn1 heq
      exact ⟨s, hs, by rw [hso, Option.some.inj h1]⟩
  · intro p n s hff hfn
    obtain ⟨segs2, fn2, h⟩ := firstFit_allocScan p.segs p.freeNodes (adjSize n) s hff (Or.inl hfn)
    simp [mem_alloc, h]

theorem C4_first_fit_witness :
    ∃ s, firstFitSeg (demoPool 300).segs (adjSize 100) = some s ∧ s.offset = 0 :=
  C4_first_fit.1 (demoPool 300) 100 0
    { capacity := 300
      segs := [{ offset := 0, size := 100, free := false },
               { offset := 100, size := 200, free := true }]
      freeNodes := 65534 } (by decide)

/-- C5 counterexample: `mem_resize` does not reject a pointer to the
start of an already-freed block.  Allocate the whole 100-byte pool at
offset 0, free it, then resize offset 0 to 100: the call returns
offset 0 (success), not failure as the claim requires. -/
theorem C5_counterexample :
    (mem_resize (mem_free (mem_alloc (demoPool 100) 100).2 0) 0 100).1 = some 0 := by decide

/-- C5 amended: for a non-zero new size, `mem_resize` on an offset that
is outside the pool or is not the start of any ledger segment (used or
free) fails and leaves the pool unchanged.  (An offset at the start of a
free segment is not rejected: the code never checks the free flag, so
such a block is processed as if live; and `mem_resize _ 0` performs
`mem_alloc 1` regardless of the pointer's validity.) -/
theorem C5_amended_foreign_resize (p : Pool) (off size : Nat) (hsz : size ≠ 0)
    (h : p.capacity ≤ off ∨ findSeg p.segs off = none) :
    mem_resize p off size = (none, p) := by
  simp only [mem_resize, if_neg hsz]
  rcases h with h | h
  · rw [if_pos h]
  · by_cases hcap : p.capacity ≤ off
    · rw [if_pos hcap]
    · rw [if_neg hcap, resizeScan_notFound p.segs p.freeNodes off size h]

theorem C5_amended_foreign_resize_witness :
    mem_resize (demoPool 10) 20 5 = (none, demoPool 10) :=
  C5_amended_foreign_resize (demoPool 10) 20 5 (by decide) (Or.inl (by decide))

/-- C6: whenever `mem_resize` reports failure the pool is unchanged; in
particular for a grow where in-place expansion is impossible and the
fallback allocation fails, the original block keeps its offset, size and
used flag (no byte of the pool is touched on this path: the code never
reaches the copy).  This is the strongest form: every failing resize,
including this one, leaves the ledger exactly as it was. -/
theorem C6_failed_resize_preserves (p : Pool) (off size : Nat)
    (h : (mem_resize p off size).1 = none) :
    (mem_resize p off size).2 = p := by
  by_cases hsz : size = 0
  · simp only [mem_resize, if_pos hsz] at h ⊢
    rcases heq : mem_alloc p 1 with ⟨ro, p2⟩
    simp only [heq] at h ⊢
    cases ro with
    | none => exact mem_alloc_none p 1 none p2 heq rfl
    | some noff => simp at h
  · simp only [mem_resize, if_neg hsz] at h ⊢
    by_cases hcap : p.capacity ≤ off
    · rw [if_pos hcap]
    · rw [if_neg hcap] at h ⊢
      rcases heq : resizeScan p.segs p.freeNodes off size with _ | ⟨r, segs2, fn2, c⟩ | _
      · simp only [heq]
      · simp only [heq] at h ⊢
        cases c with
        | false => simp at h
        | true => simp at h
      · simp only [heq] at h ⊢
        rcases heq2 : mem_alloc p size with ⟨ro, p2⟩
        simp only [heq2] at h ⊢
        cases ro with
        | none => exact mem_alloc_none p size none p2 heq2 rfl
        | some noff => simp at h

theorem C6_failed_resize_preserves_witness :
    (mem_resize
      { capacity := 100
        segs := [{ offset := 0, size := 60, free := false },
                 { offset := 60, size := 40, free := false }]
        freeNodes := 65534 } 0 70).2 =
      { capacity := 100
        segs := [{ offset := 0, size := 60, free := false },
                 { offset := 60, size := 40, free := false }]
        freeNodes := 65534 } :=
  C6_failed_resize_preserves
    { capacity := 100
      segs := [{ offset := 0, size := 60, free := false },
               { offset := 60, size := 40, free := false }]
      freeNodes := 65534 } 0 70 (by decide)

/-- C7 counterexample: `mem_resize p 0` is not `free` plus a sentinel;
it is `mem_alloc 1` plus (on success) `mem_free`.  On a fully allocated
one-byte pool, resizing the sole block to 0 fails (returns none, not a
sentinel) and the block stays used (it is not freed), contradicting the
claim on both counts. -/
theorem C7_counterexample :
    (mem_resize { capacity := 1, segs := [{ offset := 0, size := 1, free := false }],
                  freeNodes := 65535 } 0 0).1 = none ∧
    (mem_resize { capacity := 1, segs := [{ offset := 0, size := 1, free := false }],
                  freeNodes := 65535 } 0 0).2.segs =
      [{ offset := 0, size := 1, free := false }] := by decide

/-- C7 amended: `mem_resize p off 0` performs `mem_alloc 1`; if that
fails the call fails and the old block is left allocated, and if it
succeeds the old offset is freed and the fresh one-byte allocation is
returned (consuming pool space, not a sentinel). -/
theorem C7_amended_resize_zero (p : Pool) (off : Nat) :
    ((mem_alloc p 1).1 = none → mem_resize p off 0 = (none, p)) ∧
    (∀ (noff : Nat) (p2 : Pool), mem_alloc p 1 = (some noff, p2) →
      mem_resize p off 0 = (some noff, mem_free p2 off)) := by
  constructor
  · intro h
    rcases heq : mem_alloc p 1 with ⟨ro, p2⟩
    rw [heq] at h
    simp only at h
    subst h
    have hp2 : p2 = p := mem_alloc_none p 1 none p2 heq rfl
    subst hp2
    simp [mem_resize, heq]
  · intro noff p2 h
    simp [mem_resize, h]

theorem C7_amended_resize_zero_witness :
    mem_resize (demoPool 2) 5 0 =
      (some 0, mem_free { capacity := 2
                          segs := [{ offset := 0, size := 1, free := false },
                                   { offset := 1, size := 1, free := true }]
                          freeNodes := 65534 } 5) :=
  (C7_amended_resize_zero (demoPool 2) 5).2 0
    { capacity := 2
      segs := [{ offset := 0, size := 1, free := false },
               { offset := 1, size := 1, free := true }]
      freeNodes := 65534 } (by decide)

/-- C8 counterexample: no alignment rounding happens.  On a fresh
8-byte pool, `mem_alloc 3` creates a used block of size exactly 3 with
the split point at offset 3; since 3 is odd it is a multiple of no
power-of-two boundary greater than one (in particular not of 2 or of the
spec's example boundary 8), refuting rounding to any such boundary. -/
theorem C8_counterexample :
    (mem_alloc (demoPool 8) 3).2.segs =
      [{ offset := 0, size := 3, free := false },
       { offset := 3, size := 5, free := true }] ∧
    ¬ (2 ∣ 3) ∧ ¬ (8 ∣ 3) := by decide

/-- C8 amended: `mem_alloc` uses the requested size as is (only a zero
request becomes one byte): every successful allocation creates a used
block of exactly the adjusted requested size at the returned offset. -/
theorem C8_amended_no_alignment (p : Pool) (n off : Nat) (p2 : Pool) (hw : wf p = true)
    (h : mem_alloc p n = (some off, p2)) :
    findSeg p2.segs off = some { offset := off, size := adjSize n, free := false } := by
  simp only [wf, Bool.and_eq_true] at hw
  simp only [mem_alloc] at h
  split at h
  · injection h with h1 h2
    exact Option.noConfusion h1
  case h_2 off1 segs2 fn1 heq =>
    injection h with h1 h2
    have hoff : off1 = off := Option.some.inj h1
    subst hoff
    subst h2
    exact allocScan_findSeg p.segs p.freeNodes (adjSize n) off1 segs2 fn1 0 p.capacity
      hw.1 hw.2 heq

theorem C8_amended_no_alignment_witness :
    findSeg (mem_alloc (demoPool 8) 3).2.segs 0 =
      some { offset := 0, size := adjSize 3, free := false } :=
  C8_amended_no_alignment (demoPool 8) 3 0
    { capacity := 8
      segs := [{ offset := 0, size := 3, free := false },
               { offset := 3, size := 5, free := true }]
      freeNodes := 65534 } (by decide) (by decide)

/-- C9 counterexample: `mem_init 0` does not create a live pool at all —
it returns immediately, leaving no pool — and with no pool every
allocation fails, including the zero-size request, which the claim says
should still succeed with a sentinel. -/
theorem C9_counterexample :
    mem_init 0 none = none ∧ (memAllocTop (mem_init 0 none) 0).1 = none := by decide

/-- C9 amended: `mem_init 0` is a no-op on the allocator state (in
particular, starting with no pool, no pool is created), and with no live
pool every `mem_alloc`, for every size including zero, reports failure. -/
theorem C9_amended_zero_init (st : Option Pool) (n : Nat) :
    mem_init 0 st = st ∧ memAllocTop none n = (none, none) :=
  ⟨rfl, rfl⟩

/-- C10: when the metadata side table is exhausted (no descriptor on the
free list) and the first fitting free segment is not an exact fit — so a
split would be needed — `mem_alloc` fails and leaves the pool unchanged;
an exact first fit still succeeds even with zero descriptors left. -/
theorem C10_descriptor_exhaustion (p : Pool) (n : Nat) (s : Segment)
    (hfn : p.freeNodes = 0)
    (hff : firstFitSeg p.segs (adjSize n) = some s) :
    (s.size ≠ adjSize n → mem_alloc p n = (none, p)) ∧
    (s.size = adjSize n → (mem_alloc p n).1 = some s.offset) := by
  constructor
  · intro hne
    have hnone := allocScan_exhausted p.segs (adjSize n) s hff hne
    simp only [mem_alloc]
    rw [hfn, hnone]
  · intro hex
    obtain ⟨segs2, fn2, h⟩ := firstFit_allocScan p.segs p.freeNodes (adjSize n) s hff (Or.inr hex)
    simp [mem_alloc, h]

theorem C10_descriptor_exhaustion_witness :
    mem_alloc { capacity := 2, segs := [{ offset := 0, size := 2, free := true }],
                freeNodes := 0 } 1 =
      (none, { capacity := 2, segs := [{ offset := 0, size := 2, free := true }],
               freeNodes := 0 }) :=
  (C10_descriptor_exhaustion
    { capacity := 2, segs := [{ offset := 0, size := 2, free := true }], freeNodes := 0 }
    1 { offset := 0, size := 2, free := true } rfl (by decide)).1 (by decide)

end MemMgr
